import Mathlib

/-!
# Verification of `transmarkset.js` (Google Sitemap Generator UI localization)

Shallow embedding of `src/trunk/src/sitemapservice/templates/scripts/transmarkset.js`.
JavaScript strings are embedded as `List Char`; a JS value that may be `null`
(or `undefined`) is embedded as an `Option`.  JS truthiness on strings (both
`null`/`undefined` and the empty string are falsy) is made explicit as `jsTruthy`.
DOM elements are embedded as a first-order inductive carrying the attribute map,
`innerHTML`, `value`, the `tip` property and the option children; the ambient
global `SettingEditorLanguage` resource table is passed explicitly.  The
`Tips.schedule` collaborator is fire-and-forget, so each element translator
returns, next to the updated element, the Boolean saying whether the scheduler
was invoked for that element.
-/

namespace TransMarkSet

/-- JavaScript truthiness of a nullable string: `null`/`undefined` and `""` are falsy. -/
def jsTruthy : Option (List Char) → Bool
  | none => false
  | some s => !s.isEmpty

/-- The delimiter character class `[:;]` of the split regex in `getMark_`. -/
def isDelim (c : Char) : Bool := c == ':' || c == ';'

/-- Embedding of `markset.split(/[:;]/)`: split on every occurrence of `:` or `;`,
keeping empty fragments (JS `String.prototype.split` keeps them). -/
def splitMarks : List Char → List (List Char)
  | [] => [[]]
  | c :: rest =>
    if isDelim c then [] :: splitMarks rest
    else
      match splitMarks rest with
      | t :: ts => (c :: t) :: ts
      | [] => [[c]]

/-- `TransMarkSet.types.TEXT` -/
def types.TEXT : List Char := "text".toList

/-- `TransMarkSet.types.TIP` -/
def types.TIP : List Char := "tip".toList

/-- `TransMarkSet.types.VALUE` -/
def types.VALUE : List Char := "value".toList

/-- The scanning loop of `getMark_`:
`for (var i = 0; i < marks.length - 1; i += 2) { if (marks[i] == type) return marks[i+1]; }`
— a stride-2 walk over the token list that never touches a trailing unpaired token. -/
def scanPairs : List (List Char) → List Char → Option (List Char)
  | name :: mark :: rest, ty => if name = ty then some mark else scanPairs rest ty
  | _, _ => none

/-- Embedding of `TransMarkSet.getMark_(markset, type)`. -/
def getMark_ (markset ty : List Char) : Option (List Char) :=
  let marks := splitMarks markset
  if marks.length < 2 then none
  else scanPairs marks ty

/-- Embedding of `TransMarkSet.fillMark_(text, tip, value)`: concatenate a
`category:name;` fragment for each truthy name, then `slice(0, -1)` the result,
returning `null` when nothing was emitted. -/
def fillMark_ (text tip value : Option (List Char)) : Option (List Char) :=
  let markset : List Char := []
  let markset := if jsTruthy text then
    markset ++ types.TEXT ++ [':'] ++ text.getD [] ++ [';'] else markset
  let markset := if jsTruthy tip then
    markset ++ types.TIP ++ [':'] ++ tip.getD [] ++ [';'] else markset
  let markset := if jsTruthy value then
    markset ++ types.VALUE ++ [':'] ++ value.getD [] ++ [';'] else markset
  if markset = [] then none else some markset.dropLast

/-- Embedding of `TransMarkSet.modifyMark(markset, modifier)`. -/
def modifyMark (markset : List Char)
    (modifier : List Char → Option (List Char) → Option (List Char)) :
    Option (List Char) :=
  let text := getMark_ markset types.TEXT
  let tip := getMark_ markset types.TIP
  let value := getMark_ markset types.VALUE
  let text := modifier types.TEXT text
  let tip := modifier types.TIP tip
  let value := modifier types.VALUE value
  fillMark_ text tip value

/-- `modifyMark` with a stateful modifier.  A JS modifier function may close over
mutable state, so the faithful general embedding threads an explicit state `σ`
through the three calls, in the order they occur in the source
(`text`, then `tip`, then `value`); with `σ := Unit` this is `modifyMark`. -/
def modifyMarkSt {σ : Type} (markset : List Char)
    (modifier : σ → List Char → Option (List Char) → σ × Option (List Char))
    (s : σ) : σ × Option (List Char) :=
  let text := getMark_ markset types.TEXT
  let tip := getMark_ markset types.TIP
  let value := getMark_ markset types.VALUE
  let r1 := modifier s types.TEXT text
  let r2 := modifier r1.1 types.TIP tip
  let r3 := modifier r2.1 types.VALUE value
  (r3.1, fillMark_ r1.2 r2.2 r3.2)

/-- The ambient `SettingEditorLanguage` global from `languages.js`: three
mappings from mark name to localized string; a missing key yields `undefined`. -/
structure Language where
  texts : List Char → Option (List Char)
  tips : List Char → Option (List Char)
  values : List Char → Option (List Char)

/-- Indexing a JS object with a possibly-`null` key: `obj[null]` coerces the key
to the string `"null"`. -/
def jsIndex (table : List Char → Option (List Char)) :
    Option (List Char) → Option (List Char)
  | none => table "null".toList
  | some k => table k

/-- Embedding of `TransMarkSet.getText_(markset)`. -/
def getText_ (lang : Language) (markset : List Char) : Option (List Char) :=
  jsIndex lang.texts (getMark_ markset types.TEXT)

/-- Embedding of `TransMarkSet.getTip_(markset)`. -/
def getTip_ (lang : Language) (markset : List Char) : Option (List Char) :=
  jsIndex lang.tips (getMark_ markset types.TIP)

/-- Embedding of `TransMarkSet.getValue_(markset)`. -/
def getValue_ (lang : Language) (markset : List Char) : Option (List Char) :=
  jsIndex lang.values (getMark_ markset types.VALUE)

end TransMarkSet

/-- A DOM element as this module sees it: its attribute map (`getAttribute`
returns `null` for an absent attribute), its rendered content `innerHTML`, its
`value` property, its `tip` property (absent until someone sets it) and, for
selection lists, the option children. -/
inductive Element where
  | mk : List (List Char × List Char) → List Char → List Char →
      Option (List Char) → List Element → Element

/-- The attribute map of the element. -/
def Element.attributes : Element → List (List Char × List Char)
  | .mk a _ _ _ _ => a

/-- The `innerHTML` of the element. -/
def Element.innerHTML : Element → List Char
  | .mk _ h _ _ _ => h

/-- The `value` property of the element. -/
def Element.value : Element → List Char
  | .mk _ _ v _ _ => v

/-- The `tip` property of the element (`none` until set). -/
def Element.tip : Element → Option (List Char)
  | .mk _ _ _ t _ => t

/-- The option children of the element (`elem.options`). -/
def Element.options : Element → List Element
  | .mk _ _ _ _ o => o

/-- `elem.getAttribute(name)`: the first binding of `name`, or `null`. -/
def Element.getAttribute (e : Element) (name : List Char) : Option (List Char) :=
  (e.attributes.find? (fun p => p.1 == name)).map (fun p => p.2)

/-- `elem.innerHTML = h` -/
def Element.setInnerHTML : Element → List Char → Element
  | .mk a _ v t o, h => .mk a h v t o

/-- `elem.value = v` -/
def Element.setValue : Element → List Char → Element
  | .mk a h _ t o, v => .mk a h v t o

/-- `elem.tip = t` -/
def Element.setTip : Element → List Char → Element
  | .mk a h v _ o, t => .mk a h v (some t) o

/-- Replacing the option children (used to embed the in-place mutation of each
option by `Util.array.apply`). -/
def Element.setOptions : Element → List Element → Element
  | .mk a h v t _, o => .mk a h v t o

namespace TransMarkSet

/-- Modelled from the spec: the global constant `TRANSMARK_ATTRNAME`, defined
outside this source file, names the marker attribute, which the spec fixes as
`transmark`. -/
def TRANSMARK_ATTRNAME : List Char := "transmark".toList

/-- Embedding of `TransMarkSet.getElementTip_(elem)`: resolve the tip mark from
the `transmark` attribute and append `" Range=" + range` when the `range`
attribute is present and non-empty. -/
def getElementTip_ (lang : Language) (elem : Element) : Option (List Char) :=
  let mark := elem.getAttribute TRANSMARK_ATTRNAME
  if jsTruthy mark && !(mark == some []) then
    let tip := getTip_ lang (mark.getD [])
    if jsTruthy tip then
      let range := elem.getAttribute "range".toList
      let tip := if jsTruthy range && !(range == some []) then
        some (tip.getD [] ++ " Range=".toList ++ range.getD []) else tip
      tip
    else none
  else none

/-- Embedding of `TransMarkSet.getElementValue_(elem)`. -/
def getElementValue_ (lang : Language) (elem : Element) : Option (List Char) :=
  let mark := elem.getAttribute TRANSMARK_ATTRNAME
  if jsTruthy mark && !(mark == some []) then
    let value := getValue_ lang (mark.getD [])
    if jsTruthy value then value else none
  else none

/-- Embedding of `TransMarkSet.getElementText_(elem)`. -/
def getElementText_ (lang : Language) (elem : Element) : Option (List Char) :=
  let mark := elem.getAttribute TRANSMARK_ATTRNAME
  if jsTruthy mark && !(mark == some []) then
    let text := getText_ lang (mark.getD [])
    if jsTruthy text then text else none
  else none

/-- Embedding of `TransMarkSet.transLanguageForSpanElem(elem)`.  The Boolean in
the result records whether `Tips.schedule(elem)` was invoked. -/
def transLanguageForSpanElem (lang : Language) (elem : Element) :
    Element × Bool :=
  let text := getElementText_ lang elem
  let elem := if jsTruthy text then elem.setInnerHTML (text.getD []) else elem
  let tip := getElementTip_ lang elem
  if jsTruthy tip then (elem.setTip (tip.getD []), true) else (elem, false)

/-- Embedding of `TransMarkSet.transLanguageForInputElem(elem)`. -/
def transLanguageForInputElem (lang : Language) (elem : Element) :
    Element × Bool :=
  let value := getElementValue_ lang elem
  let elem := if jsTruthy value then elem.setValue (value.getD []) else elem
  let tip := getElementTip_ lang elem
  if jsTruthy tip then (elem.setTip (tip.getD []), true) else (elem, false)

/-- The function applied to every option by `transLanguageForSelectElem`
(the body of the `Util.array.apply` callback). -/
def transOptionElem (lang : Language) (option : Element) : Element :=
  let text := getElementText_ lang option
  if jsTruthy text then option.setInnerHTML (text.getD []) else option

/-- Embedding of `TransMarkSet.transLanguageForSelectElem(elem)`: the select's
own tip first, then each option's text. -/
def transLanguageForSelectElem (lang : Language) (elem : Element) :
    Element × Bool :=
  let tip := getElementTip_ lang elem
  let r := if jsTruthy tip then (elem.setTip (tip.getD []), true) else (elem, false)
  (r.1.setOptions (r.1.options.map (transOptionElem lang)), r.2)

/-- Embedding of `TransMarkSet.transLanguageForLinkElem(elem)`. -/
def transLanguageForLinkElem (lang : Language) (elem : Element) :
    Element × Bool :=
  let tip := getElementTip_ lang elem
  if jsTruthy tip then (elem.setTip (tip.getD []), true) else (elem, false)

end TransMarkSet

namespace TransMarkSet

/-! ## Basic facts about the token split -/

/-- A string fragment free of the two delimiter characters. -/
def delimFree (s : List Char) : Bool := s.all (fun c => !isDelim c)

/-- Mark names considered valid by the spec: present names are non-empty and
contain neither `:` nor `;`. -/
def validName (t : Option (List Char)) : Bool :=
  t.all (fun s => !s.isEmpty && delimFree s)

theorem splitMarks_ne_nil (s : List Char) : splitMarks s ≠ [] := by
  induction s with
  | nil => simp [splitMarks]
  | cons c rest ih =>
    simp only [splitMarks]
    split
    · simp
    · cases h : splitMarks rest with
      | nil => simp
      | cons t ts => simp

theorem delimFree_cons {c : Char} {rest : List Char}
    (h : delimFree (c :: rest) = true) :
    isDelim c = false ∧ delimFree rest = true := by
  simpa [delimFree, Bool.not_eq_true'] using h

theorem splitMarks_delimFree (s : List Char) (h : delimFree s = true) :
    splitMarks s = [s] := by
  induction s with
  | nil => rfl
  | cons c rest ih =>
    obtain ⟨h1, h2⟩ := delimFree_cons h
    simp [splitMarks, h1, ih h2]

theorem splitMarks_append_delim (a b : List Char) (d : Char)
    (ha : delimFree a = true) (hd : isDelim d = true) :
    splitMarks (a ++ d :: b) = a :: splitMarks b := by
  induction a with
  | nil => simp [splitMarks, hd]
  | cons c rest ih =>
    obtain ⟨h1, h2⟩ := delimFree_cons ha
    simp [splitMarks, h1, ih h2]

/-! ## The pair view of a token list -/

/-- The stride-2 reading of a token list as (category, name) pairs, in the
order they appear; a trailing unpaired token is dropped. -/
def chunkPairs : List (List Char) → List (List Char × List Char)
  | a :: b :: rest => (a, b) :: chunkPairs rest
  | _ => []

theorem scanPairs_eq_find? :
    ∀ (l : List (List Char)) (ty : List Char),
      scanPairs l ty =
        ((chunkPairs l).find? (fun pr => pr.1 == ty)).map (fun pr => pr.2)
  | [], _ => rfl
  | [_], _ => rfl
  | a :: b :: rest, ty => by
    by_cases h : a = ty
    · simp [scanPairs, chunkPairs, List.find?, h]
    · simp only [scanPairs, chunkPairs, List.find?, if_neg h,
        beq_eq_false_iff_ne.mpr h]
      exact scanPairs_eq_find? rest ty

theorem getMark_eq_find? (m ty : List Char) :
    getMark_ m ty =
      ((chunkPairs (splitMarks m)).find? (fun pr => pr.1 == ty)).map
        (fun pr => pr.2) := by
  unfold getMark_
  by_cases h : (splitMarks m).length < 2
  · have hne := splitMarks_ne_nil m
    match hs : splitMarks m with
    | [] => exact absurd hs hne
    | [t] => simp [hs, chunkPairs]
    | a :: b :: rest =>
      rw [hs] at h
      exact absurd h (by simp)
  · simp only [if_neg h]
    exact scanPairs_eq_find? (splitMarks m) ty

/-! ## A normal form for the output of the builder -/

/-- The (category, name) pairs that `fillMark_` actually emits: one per truthy
argument, in the fixed order text, tip, value. -/
def presentPairs (t p v : Option (List Char)) : List (List Char × List Char) :=
  (if jsTruthy t then [(types.TEXT, t.getD [])] else []) ++
  (if jsTruthy p then [(types.TIP, p.getD [])] else []) ++
  (if jsTruthy v then [(types.VALUE, v.getD [])] else [])

/-- The string `fillMark_` accumulates before its final `slice(0, -1)`: one
`category:name;` fragment per pair. -/
def encodeFrags : List (List Char × List Char) → List Char
  | [] => []
  | (c, n) :: rest => c ++ ':' :: n ++ ';' :: encodeFrags rest

/-- The same encoding with the final `;` already removed. -/
def encodeTrim : List (List Char × List Char) → List Char
  | [] => []
  | [(c, n)] => c ++ ':' :: n
  | (c, n) :: rest => c ++ ':' :: n ++ ';' :: encodeTrim rest

/-- The flat token list that splitting the encoding must give back. -/
def tokensOfPairs : List (List Char × List Char) → List (List Char)
  | [] => []
  | (c, n) :: rest => c :: n :: tokensOfPairs rest

theorem encodeFrags_ne_nil (pr : List Char × List Char)
    (l : List (List Char × List Char)) : encodeFrags (pr :: l) ≠ [] := by
  cases pr
  simp [encodeFrags]

theorem dropLast_encodeFrags :
    ∀ l : List (List Char × List Char), (encodeFrags l).dropLast = encodeTrim l
  | [] => rfl
  | [(c, n)] => by
    have h : encodeFrags [(c, n)] = (c ++ ':' :: n) ++ [';'] := by
      simp [encodeFrags]
    rw [h, encodeTrim, List.dropLast_concat]
  | (c, n) :: pr2 :: rest => by
    have h : encodeFrags ((c, n) :: pr2 :: rest) =
        (c ++ ':' :: n ++ [';']) ++ encodeFrags (pr2 :: rest) := by
      simp [encodeFrags]
    rw [h, List.dropLast_append_of_ne_nil _ (encodeFrags_ne_nil pr2 rest),
      dropLast_encodeFrags (pr2 :: rest)]
    cases pr2
    simp [encodeTrim]

theorem splitMarks_encodeTrim :
    ∀ l : List (List Char × List Char), l ≠ [] →
      (∀ pr ∈ l, delimFree pr.1 = true ∧ delimFree pr.2 = true) →
      splitMarks (encodeTrim l) = tokensOfPairs l
  | [], h, _ => absurd rfl h
  | [(c, n)], _, hdf => by
    have hc : delimFree c = true := (hdf (c, n) (by simp)).1
    have hn : delimFree n = true := (hdf (c, n) (by simp)).2
    rw [encodeTrim, splitMarks_append_delim c _ ':' hc (by decide),
      splitMarks_delimFree n hn]
    rfl
  | (c, n) :: pr2 :: rest, _, hdf => by
    have hc : delimFree c = true := (hdf (c, n) (by simp)).1
    have hn : delimFree n = true := (hdf (c, n) (by simp)).2
    have ih := splitMarks_encodeTrim (pr2 :: rest) (List.cons_ne_nil _ _)
      (fun pr hpr => hdf pr (by simp [hpr]))
    rw [encodeTrim]
    simp only [List.append_assoc, List.cons_append]
    rw [splitMarks_append_delim c _ ':' hc (by decide),
      splitMarks_append_delim n _ ';' hn (by decide), ih]
    rfl
    exact fun h => List.noConfusion h

theorem chunkPairs_tokensOfPairs :
    ∀ l : List (List Char × List Char), chunkPairs (tokensOfPairs l) = l
  | [] => rfl
  | (c, n) :: rest => by
    rw [tokensOfPairs, chunkPairs, chunkPairs_tokensOfPairs rest]

/-- `fillMark_` in normal form: it emits exactly the `presentPairs`, encoded
and with the last `;` removed, and is `null` exactly when no pair is present. -/
theorem fillMark_eq_encode (t p v : Option (List Char)) :
    fillMark_ t p v =
      if presentPairs t p v = [] then none
      else some (encodeTrim (presentPairs t p v)) := by
  rw [← dropLast_encodeFrags]
  by_cases ht : jsTruthy t <;> by_cases hp : jsTruthy p <;> by_cases hv : jsTruthy v <;>
    simp [fillMark_, presentPairs, encodeFrags, ht, hp, hv]

/-! ## The build/parse round trip -/

theorem validName_some {s : List Char} (h : validName (some s) = true) :
    s ≠ [] ∧ delimFree s = true := by
  have h' : (!s.isEmpty && delimFree s) = true := h
  simp only [Bool.and_eq_true, Bool.not_eq_true'] at h'
  exact ⟨by simpa [List.isEmpty_eq_false] using h'.1, h'.2⟩

theorem jsTruthy_none : jsTruthy none = false := rfl

theorem jsTruthy_some {s : List Char} (h : s ≠ []) : jsTruthy (some s) = true := by
  simp [jsTruthy, List.isEmpty_iff, h]

theorem mem_ite_singleton {α : Type} {c : Bool} {x pr : α}
    (h : pr ∈ if c = true then [x] else []) : c = true ∧ pr = x := by
  cases hc : c
  · rw [hc] at h
    simp at h
  · rw [hc] at h
    simp at h
    exact ⟨rfl, h⟩

theorem beq_text_tip : (types.TEXT == types.TIP) = false := by decide

theorem beq_text_value : (types.TEXT == types.VALUE) = false := by decide

theorem beq_tip_text : (types.TIP == types.TEXT) = false := by decide

theorem beq_tip_value : (types.TIP == types.VALUE) = false := by decide

theorem beq_value_text : (types.VALUE == types.TEXT) = false := by decide

theorem beq_value_tip : (types.VALUE == types.TIP) = false := by decide

theorem presentPairs_delimFree (t p v : Option (List Char))
    (ht : validName t = true) (hp : validName p = true) (hv : validName v = true) :
    ∀ pr ∈ presentPairs t p v, delimFree pr.1 = true ∧ delimFree pr.2 = true := by
  intro pr hpr
  simp only [presentPairs, List.mem_append] at hpr
  rcases hpr with (h1 | h2) | h3
  · obtain ⟨hc, he⟩ := mem_ite_singleton h1
    rcases t with _ | s
    · simp [jsTruthy] at hc
    · subst he
      exact ⟨show delimFree types.TEXT = true by decide, (validName_some ht).2⟩
  · obtain ⟨hc, he⟩ := mem_ite_singleton h2
    rcases p with _ | s
    · simp [jsTruthy] at hc
    · subst he
      exact ⟨show delimFree types.TIP = true by decide, (validName_some hp).2⟩
  · obtain ⟨hc, he⟩ := mem_ite_singleton h3
    rcases v with _ | s
    · simp [jsTruthy] at hc
    · subst he
      exact ⟨show delimFree types.VALUE = true by decide, (validName_some hv).2⟩

/-- Parsing an encoded pair list is the first-match lookup on those pairs. -/
theorem getMark_encodeTrim (l : List (List Char × List Char)) (hne : l ≠ [])
    (hdf : ∀ pr ∈ l, delimFree pr.1 = true ∧ delimFree pr.2 = true)
    (ty : List Char) :
    getMark_ (encodeTrim l) ty =
      (l.find? (fun pr => pr.1 == ty)).map (fun pr => pr.2) := by
  rw [getMark_eq_find?, splitMarks_encodeTrim l hne hdf, chunkPairs_tokensOfPairs]

/-- The core round trip: building from valid names (each present name non-empty
and delimiter-free, at least one present) gives a markset from which `getMark_`
recovers exactly the names supplied. -/
theorem fillMark_getMark (t p v : Option (List Char))
    (ht : validName t = true) (hp : validName p = true) (hv : validName v = true)
    (hne : t ≠ none ∨ p ≠ none ∨ v ≠ none) :
    fillMark_ t p v = some (encodeTrim (presentPairs t p v)) ∧
      getMark_ (encodeTrim (presentPairs t p v)) types.TEXT = t ∧
      getMark_ (encodeTrim (presentPairs t p v)) types.TIP = p ∧
      getMark_ (encodeTrim (presentPairs t p v)) types.VALUE = v := by
  have hdf := presentPairs_delimFree t p v ht hp hv
  have hpp : presentPairs t p v ≠ [] := by
    rcases hne with h | h | h
    · rcases t with _ | s
      · exact absurd rfl h
      · simp [presentPairs, jsTruthy_some (validName_some ht).1]
    · rcases p with _ | s
      · exact absurd rfl h
      · simp [presentPairs, jsTruthy_some (validName_some hp).1]
    · rcases v with _ | s
      · exact absurd rfl h
      · simp [presentPairs, jsTruthy_some (validName_some hv).1]
  rcases t with _ | a <;> rcases p with _ | b <;> rcases v with _ | c
  · simp at hne
  · obtain ⟨hc, -⟩ := validName_some hv
    refine ⟨?_, ?_, ?_, ?_⟩
    · rw [fillMark_eq_encode]
      simp [hpp]
    all_goals rw [getMark_encodeTrim _ hpp hdf]
    all_goals
      simp [presentPairs,
        jsTruthy_none, jsTruthy_some hc, List.find?,
        beq_value_text, beq_value_tip]
  · obtain ⟨hb, -⟩ := validName_some hp
    refine ⟨?_, ?_, ?_, ?_⟩
    · rw [fillMark_eq_encode]
      simp [hpp]
    all_goals rw [getMark_encodeTrim _ hpp hdf]
    all_goals
      simp [presentPairs,
        jsTruthy_none, jsTruthy_some hb, List.find?,
        beq_tip_text, beq_tip_value]
  · obtain ⟨hb, -⟩ := validName_some hp
    obtain ⟨hc, -⟩ := validName_some hv
    refine ⟨?_, ?_, ?_, ?_⟩
    · rw [fillMark_eq_encode]
      simp [hpp]
    all_goals rw [getMark_encodeTrim _ hpp hdf]
    all_goals
      simp [presentPairs,
        jsTruthy_none, jsTruthy_some hb, jsTruthy_some hc, List.find?,
        beq_tip_text, beq_tip_value, beq_value_text, beq_value_tip]
  · obtain ⟨ha, -⟩ := validName_some ht
    refine ⟨?_, ?_, ?_, ?_⟩
    · rw [fillMark_eq_encode]
      simp [hpp]
    all_goals rw [getMark_encodeTrim _ hpp hdf]
    all_goals
      simp [presentPairs,
        jsTruthy_none, jsTruthy_some ha, List.find?,
        beq_text_tip, beq_text_value]
  · obtain ⟨ha, -⟩ := validName_some ht
    obtain ⟨hc, -⟩ := validName_some hv
    refine ⟨?_, ?_, ?_, ?_⟩
    · rw [fillMark_eq_encode]
      simp [hpp]
    all_goals rw [getMark_encodeTrim _ hpp hdf]
    all_goals
      simp [presentPairs,
        jsTruthy_none, jsTruthy_some ha, jsTruthy_some hc, List.find?,
        beq_text_tip, beq_text_value, beq_value_text, beq_value_tip]
  · obtain ⟨ha, -⟩ := validName_some ht
    obtain ⟨hb, -⟩ := validName_some hp
    refine ⟨?_, ?_, ?_, ?_⟩
    · rw [fillMark_eq_encode]
      simp [hpp]
    all_goals rw [getMark_encodeTrim _ hpp hdf]
    all_goals
      simp [presentPairs,
        jsTruthy_none, jsTruthy_some ha, jsTruthy_some hb, List.find?,
        beq_text_tip, beq_text_value, beq_tip_text, beq_tip_value]
  · obtain ⟨ha, -⟩ := validName_some ht
    obtain ⟨hb, -⟩ := validName_some hp
    obtain ⟨hc, -⟩ := validName_some hv
    refine ⟨?_, ?_, ?_, ?_⟩
    · rw [fillMark_eq_encode]
      simp [hpp]
    all_goals rw [getMark_encodeTrim _ hpp hdf]
    all_goals
      simp [presentPairs,
        jsTruthy_some ha, jsTruthy_some hb, jsTruthy_some hc, List.find?,
        beq_text_tip, beq_text_value, beq_tip_text, beq_tip_value,
        beq_value_text, beq_value_tip]

/-! ## Further facts used by the claims -/

theorem jsTruthy_some_iff {s : List Char} : jsTruthy (some s) = true ↔ s ≠ [] := by
  simp [jsTruthy, List.isEmpty_eq_false]

theorem presentPairs_mem (t p v : Option (List Char)) :
    ∀ pr ∈ presentPairs t p v,
      (∃ s, t = some s ∧ pr = (types.TEXT, s) ∧ s ≠ []) ∨
      (∃ s, p = some s ∧ pr = (types.TIP, s) ∧ s ≠ []) ∨
      (∃ s, v = some s ∧ pr = (types.VALUE, s) ∧ s ≠ []) := by
  intro pr hpr
  simp only [presentPairs, List.mem_append] at hpr
  rcases hpr with (h1 | h2) | h3
  · obtain ⟨hc, he⟩ := mem_ite_singleton h1
    rcases t with _ | s
    · simp [jsTruthy] at hc
    · exact Or.inl ⟨s, rfl, by simpa using he, jsTruthy_some_iff.mp hc⟩
  · obtain ⟨hc, he⟩ := mem_ite_singleton h2
    rcases p with _ | s
    · simp [jsTruthy] at hc
    · exact Or.inr (Or.inl ⟨s, rfl, by simpa using he, jsTruthy_some_iff.mp hc⟩)
  · obtain ⟨hc, he⟩ := mem_ite_singleton h3
    rcases v with _ | s
    · simp [jsTruthy] at hc
    · exact Or.inr (Or.inr ⟨s, rfl, by simpa using he, jsTruthy_some_iff.mp hc⟩)

theorem encodeTrim_ne_nil (pr : List Char × List Char)
    (l : List (List Char × List Char)) : encodeTrim (pr :: l) ≠ [] := by
  obtain ⟨c, n⟩ := pr
  cases l <;> simp [encodeTrim]

theorem encodeTrim_getLast? :
    ∀ l : List (List Char × List Char), l ≠ [] → (∀ pr ∈ l, pr.2 ≠ []) →
      ∃ pr ∈ l, (encodeTrim l).getLast? = pr.2.getLast?
  | [], h, _ => absurd rfl h
  | [(c, n)], _, hn => by
    refine ⟨(c, n), by simp, ?_⟩
    rw [encodeTrim, List.getLast?_append_of_ne_nil _ (List.cons_ne_nil ':' n)]
    have hn' : n ≠ [] := hn (c, n) (by simp)
    rw [show (':' :: n) = [':'] ++ n from rfl,
      List.getLast?_append_of_ne_nil _ hn']
  | (c, n) :: pr2 :: rest, _, hn => by
    obtain ⟨pr, hmem, hlast⟩ := encodeTrim_getLast? (pr2 :: rest)
      (List.cons_ne_nil _ _) (fun q hq => hn q (List.mem_cons_of_mem _ hq))
    refine ⟨pr, List.mem_cons_of_mem _ hmem, ?_⟩
    rw [encodeTrim, List.getLast?_append_of_ne_nil _ (List.cons_ne_nil ';' _),
      show (';' :: encodeTrim (pr2 :: rest)) = [';'] ++ encodeTrim (pr2 :: rest)
        from rfl,
      List.getLast?_append_of_ne_nil _ (encodeTrim_ne_nil pr2 rest), hlast]
    exact fun hh => List.noConfusion hh

/-- Present names free of a trailing `;`. -/
def noTrailingSemi (t : Option (List Char)) : Bool :=
  t.all (fun s => !(s.getLast? == some ';'))

/-! ## Claims C1, C3, C4, C5, C6, C10 -/

/-- Claim C1: for every triple of mark names with at least one present (each
present name non-empty and free of `:` and `;`), extracting each category from
the markset built by `fillMark_` returns the original name for each present
category and `null` for each absent one. -/
theorem C1_build_then_parse (t p v : Option (List Char))
    (ht : validName t = true) (hp : validName p = true) (hv : validName v = true)
    (hne : t ≠ none ∨ p ≠ none ∨ v ≠ none) :
    ∃ m, fillMark_ t p v = some m ∧
      getMark_ m types.TEXT = t ∧ getMark_ m types.TIP = p ∧
      getMark_ m types.VALUE = v := by
  obtain ⟨h1, h2, h3, h4⟩ := fillMark_getMark t p v ht hp hv hne
  exact ⟨_, h1, h2, h3, h4⟩

theorem C1_build_then_parse_witness :
    ∃ m, fillMark_ (some ("a".toList)) none (some ("b".toList)) = some m ∧
      getMark_ m types.TEXT = some ("a".toList) ∧
      getMark_ m types.TIP = none ∧
      getMark_ m types.VALUE = some ("b".toList) :=
  C1_build_then_parse (some ("a".toList)) none (some ("b".toList))
    (by decide) (by decide) (by decide) (Or.inl (by decide))

/-- The modifier of `modifyMark`, instrumented to record its invocations: the
state accumulates one `(category, argument)` entry per call. -/
def recordingModifier
    (f : List Char → Option (List Char) → Option (List Char)) :
    List (List Char × Option (List Char)) → List Char → Option (List Char) →
    List (List Char × Option (List Char)) × Option (List Char) :=
  fun trace ty v => (trace ++ [(ty, v)], f ty v)

/-- Claim C3: `modifyMark` invokes the modifier exactly three times, once per
category, in the fixed order text, tip, value — also for categories absent from
the markset, where the modifier receives `null` — and its result is the markset
rebuilt by `fillMark_` from the three returned names. -/
theorem C3_modifier_three_calls_in_order (m : List Char)
    (f : List Char → Option (List Char) → Option (List Char)) :
    (modifyMarkSt m (recordingModifier f) []).1 =
      [(types.TEXT, getMark_ m types.TEXT), (types.TIP, getMark_ m types.TIP),
        (types.VALUE, getMark_ m types.VALUE)] ∧
    (modifyMarkSt m (recordingModifier f) []).2 =
      fillMark_ (f types.TEXT (getMark_ m types.TEXT))
        (f types.TIP (getMark_ m types.TIP))
        (f types.VALUE (getMark_ m types.VALUE)) ∧
    modifyMark m f =
      fillMark_ (f types.TEXT (getMark_ m types.TEXT))
        (f types.TIP (getMark_ m types.TIP))
        (f types.VALUE (getMark_ m types.VALUE)) :=
  ⟨rfl, rfl, rfl⟩

/-- Claim C4 counterexample: a present name may itself end in `;`, and then the
non-null markset built by `fillMark_` does end in a trailing `;`. -/
theorem C4_counterexample :
    fillMark_ (some (";".toList)) none none = some ("text:;".toList) ∧
    ("text:;".toList).getLast? = some ';' := by decide

/-- Claim C4 (amended): `fillMark_(null, null, null)` is `null`, and every
non-null markset built from names that do not end in `;` has no trailing `;`. -/
theorem C4_amended_null_build_and_no_trailing_separator
    (t p v : Option (List Char))
    (ht : noTrailingSemi t = true) (hp : noTrailingSemi p = true)
    (hv : noTrailingSemi v = true) :
    fillMark_ none none none = none ∧
    ∀ m, fillMark_ t p v = some m → m.getLast? ≠ some ';' := by
  refine ⟨rfl, ?_⟩
  intro m hm
  rw [fillMark_eq_encode] at hm
  by_cases hpp : presentPairs t p v = []
  · rw [if_pos hpp] at hm
    exact Option.noConfusion hm
  · rw [if_neg hpp] at hm
    have hm' : encodeTrim (presentPairs t p v) = m := Option.some.inj hm
    subst hm'
    have hnames : ∀ pr ∈ presentPairs t p v, pr.2 ≠ [] := by
      intro pr hpr
      rcases presentPairs_mem t p v pr hpr with ⟨s, -, he, hs⟩ | ⟨s, -, he, hs⟩ |
        ⟨s, -, he, hs⟩ <;> (subst he; exact hs)
    obtain ⟨pr, hmem, hlast⟩ := encodeTrim_getLast? _ hpp hnames
    rw [hlast]
    rcases presentPairs_mem t p v pr hmem with ⟨s, hts, he, -⟩ | ⟨s, hts, he, -⟩ |
      ⟨s, hts, he, -⟩
    · subst he
      rw [hts] at ht
      simpa [noTrailingSemi] using ht
    · subst he
      rw [hts] at hp
      simpa [noTrailingSemi] using hp
    · subst he
      rw [hts] at hv
      simpa [noTrailingSemi] using hv

theorem C4_amended_witness :
    fillMark_ none none none = none ∧
    ("text:a;value:b".toList).getLast? ≠ some ';' := by
  have h := C4_amended_null_build_and_no_trailing_separator
    (some ("a".toList)) none (some ("b".toList)) (by decide) (by decide) (by decide)
  exact ⟨h.1, h.2 _ (by decide)⟩

theorem scanPairs_dropLast_odd :
    ∀ (l : List (List Char)) (ty : List Char), l.length % 2 = 1 →
      scanPairs l ty = scanPairs l.dropLast ty
  | [], _, h => by simp at h
  | [_], _, _ => rfl
  | [_, _], _, h => by simp at h
  | a :: b :: r :: rs, ty, h => by
    have h' : (r :: rs).length % 2 = 1 := by
      simp only [List.length_cons] at h ⊢
      omega
    by_cases hab : a = ty
    · simp [scanPairs, List.dropLast, hab]
    · simp only [scanPairs, if_neg hab, List.dropLast]
      exact scanPairs_dropLast_odd (r :: rs) ty h'

/-- Claim C5 counterexample: a markset splitting into an odd number of tokens
can still resolve a category — only the trailing unpaired token is ignored. -/
theorem C5_counterexample :
    (splitMarks ("text:a;b".toList)).length % 2 = 1 ∧
    getMark_ ("text:a;b".toList) types.TEXT = some ("a".toList) := by decide

/-- Claim C5 (amended): with fewer than 2 tokens `getMark_` returns `null` for
every category; with an odd number of tokens the trailing unpaired token is
ignored and the scan proceeds over the complete pairs alone. -/
theorem C5_amended_short_and_odd_token_lists (m ty : List Char) :
    ((splitMarks m).length < 2 → getMark_ m ty = none) ∧
    ((splitMarks m).length % 2 = 1 →
      getMark_ m ty = scanPairs ((splitMarks m).dropLast) ty) := by
  constructor
  · intro h
    simp [getMark_, h]
  · intro hodd
    by_cases h2 : (splitMarks m).length < 2
    · have hne := splitMarks_ne_nil m
      match hs : splitMarks m with
      | [] => exact absurd hs hne
      | [t] => simp [getMark_, hs, scanPairs, List.dropLast]
      | a :: b :: rest =>
        rw [hs] at h2
        exact absurd h2 (by simp)
    · simp only [getMark_, if_neg h2]
      exact scanPairs_dropLast_odd _ ty hodd

theorem C5_amended_witness :
    (splitMarks ("abc".toList)).length < 2 ∧
    getMark_ ("abc".toList) types.TEXT = none ∧
    (splitMarks ("abc".toList)).length % 2 = 1 ∧
    getMark_ ("abc".toList) types.TIP =
      scanPairs ((splitMarks ("abc".toList)).dropLast) types.TIP :=
  ⟨by decide, (C5_amended_short_and_odd_token_lists "abc".toList types.TEXT).1
      (by decide),
    by decide, (C5_amended_short_and_odd_token_lists "abc".toList types.TIP).2
      (by decide)⟩

theorem find?_append_first (l₁ l₂ : List (List Char × List Char))
    (ty n : List Char) (hfirst : ∀ pr ∈ l₁, pr.1 ≠ ty) :
    (l₁ ++ (ty, n) :: l₂).find? (fun pr => pr.1 == ty) = some (ty, n) := by
  induction l₁ with
  | nil => simp [List.find?]
  | cons q qs ih =>
    have hq : (q.1 == ty) = false := beq_eq_false_iff_ne.mpr (hfirst q (by simp))
    simp only [List.cons_append, List.find?, hq]
    exact ih (fun pr h => hfirst pr (by simp [h]))

/-- Claim C6: when the same category appears in more than one pair, `getMark_`
returns the name of the first matching pair in the order the pairs appear in
the string — a linear scan in strides of 2 from index 0, first match wins. -/
theorem C6_first_match_wins (m ty n : List Char)
    (l₁ l₂ : List (List Char × List Char))
    (hsplit : chunkPairs (splitMarks m) = l₁ ++ (ty, n) :: l₂)
    (hfirst : ∀ pr ∈ l₁, pr.1 ≠ ty) :
    getMark_ m ty = some n := by
  rw [getMark_eq_find?, hsplit, find?_append_first l₁ l₂ ty n hfirst]
  rfl

theorem C6_first_match_wins_witness :
    getMark_ ("tip:a;tip:b".toList) types.TIP = some ("a".toList) :=
  C6_first_match_wins ("tip:a;tip:b".toList) types.TIP ("a".toList)
    [] [(types.TIP, "b".toList)] (by decide) (by decide)

/-- Claim C10: a mark name containing a delimiter is embedded verbatim by
`fillMark_` (the result is non-null), but `getMark_` on that result does not
return the original name — the round trip holds only for delimiter-free names. -/
theorem C10_delimiter_in_name_breaks_roundtrip :
    fillMark_ (some ("a;b".toList)) none none = some ("text:a;b".toList) ∧
    getMark_ ("text:a;b".toList) types.TEXT = some ("a".toList) ∧
    "a".toList ≠ "a;b".toList := by decide

/-! ## Claim C2: the parse/build round trip on well-formed marksets -/

theorem splitMarks_mem_delimFree :
    ∀ (s t : List Char), t ∈ splitMarks s → delimFree t = true
  | [], t, ht => by
    simp [splitMarks] at ht
    subst ht
    rfl
  | c :: rest, t, ht => by
    by_cases hc : isDelim c = true
    · rw [splitMarks, if_pos hc] at ht
      rcases List.mem_cons.mp ht with h | h
      · subst h
        rfl
      · exact splitMarks_mem_delimFree rest t h
    · cases hs : splitMarks rest with
      | nil => exact absurd hs (splitMarks_ne_nil rest)
      | cons t0 ts =>
        have key : splitMarks (c :: rest) = (c :: t0) :: ts := by
          rw [splitMarks, if_neg hc, hs]
        rw [key] at ht
        have hcf : isDelim c = false := by
          cases hic : isDelim c
          · rfl
          · exact absurd hic hc
        rcases List.mem_cons.mp ht with h | h
        · subst h
          have ht0 : delimFree t0 = true := splitMarks_mem_delimFree rest t0
            (by rw [hs]; exact List.mem_cons_self _ _)
          simpa [delimFree, hcf] using ht0
        · exact splitMarks_mem_delimFree rest t
            (by rw [hs]; exact List.mem_cons_of_mem _ h)

theorem mem_of_mem_chunkPairs :
    ∀ (l : List (List Char)) (pr : List Char × List Char),
      pr ∈ chunkPairs l → pr.1 ∈ l ∧ pr.2 ∈ l
  | [], pr, h => absurd h (List.not_mem_nil pr)
  | [_], pr, h => absurd h (List.not_mem_nil pr)
  | a :: b :: rest, pr, h => by
    rcases List.mem_cons.mp h with h | h
    · subst h
      exact ⟨List.mem_cons_self _ _,
        List.mem_cons_of_mem _ (List.mem_cons_self _ _)⟩
    · obtain ⟨h1, h2⟩ := mem_of_mem_chunkPairs rest pr h
      exact ⟨List.mem_cons_of_mem _ (List.mem_cons_of_mem _ h1),
        List.mem_cons_of_mem _ (List.mem_cons_of_mem _ h2)⟩

/-- A well-formed markset as the claim describes it: an even token list of at
least one pair, alternating category/name with categories from the fixed set
and non-empty names (tokens are delimiter-free by construction of the split). -/
def wellFormed (m : List Char) : Bool :=
  decide ((splitMarks m).length % 2 = 0) &&
  decide (2 ≤ (splitMarks m).length) &&
  (chunkPairs (splitMarks m)).all (fun pr =>
    (pr.1 == types.TEXT || pr.1 == types.TIP || pr.1 == types.VALUE) &&
    !pr.2.isEmpty)

/-- Claim C2: rebuilding a markset from the three extracted category values
yields a markset equivalent to the original well-formed one — extraction
returns the same name (or absence) for every category, regardless of the order
or duplication of pairs in the original. -/
theorem C2_parse_then_build (m : List Char) (h : wellFormed m = true) :
    ∃ m2, fillMark_ (getMark_ m types.TEXT) (getMark_ m types.TIP)
        (getMark_ m types.VALUE) = some m2 ∧
      getMark_ m2 types.TEXT = getMark_ m types.TEXT ∧
      getMark_ m2 types.TIP = getMark_ m types.TIP ∧
      getMark_ m2 types.VALUE = getMark_ m types.VALUE := by
  simp only [wellFormed, Bool.and_eq_true, decide_eq_true_eq,
    List.all_eq_true] at h
  obtain ⟨⟨heven, hlen⟩, hall⟩ := h
  have hvalid : ∀ ty : List Char, validName (getMark_ m ty) = true := by
    intro ty
    rw [getMark_eq_find?]
    cases hf : (chunkPairs (splitMarks m)).find? (fun pr => pr.1 == ty) with
    | none => rfl
    | some pr =>
      have hmem := List.mem_of_find?_eq_some hf
      have hprops := hall pr hmem
      simp only [Bool.and_eq_true, Bool.not_eq_true'] at hprops
      have hne : pr.2 ≠ [] := by
        intro he
        rw [he] at hprops
        simp at hprops
      have hdf : delimFree pr.2 = true :=
        splitMarks_mem_delimFree m pr.2 (mem_of_mem_chunkPairs _ pr hmem).2
      show validName (some pr.2) = true
      simp [validName, List.isEmpty_eq_false, hne, hdf]
  have hne3 : getMark_ m types.TEXT ≠ none ∨ getMark_ m types.TIP ≠ none ∨
      getMark_ m types.VALUE ≠ none := by
    have hnil := splitMarks_ne_nil m
    match hs : splitMarks m with
    | [] => exact absurd hs hnil
    | [x] =>
      rw [hs] at hlen
      exact absurd hlen (by simp)
    | a :: b :: rest =>
      have hmem : (a, b) ∈ chunkPairs (splitMarks m) := by
        rw [hs, chunkPairs]
        exact List.mem_cons_self _ _
      have hcat := hall (a, b) hmem
      simp only [Bool.and_eq_true, Bool.or_eq_true, beq_iff_eq] at hcat
      have hfind : getMark_ m a ≠ none := by
        rw [getMark_eq_find?]
        cases hf : (chunkPairs (splitMarks m)).find? (fun pr => pr.1 == a) with
        | some pr => simp
        | none =>
          have := List.find?_eq_none.mp hf (a, b) hmem
          simp at this
      rcases hcat.1 with (hh | hh) | hh
      · exact Or.inl (hh ▸ hfind)
      · exact Or.inr (Or.inl (hh ▸ hfind))
      · exact Or.inr (Or.inr (hh ▸ hfind))
  obtain ⟨h1, h2, h3, h4⟩ := fillMark_getMark _ _ _ (hvalid _) (hvalid _)
    (hvalid _) hne3
  exact ⟨_, h1, h2, h3, h4⟩

theorem C2_parse_then_build_witness :
    wellFormed ("tip:b;text:a;text:c".toList) = true ∧
    ∃ m2, fillMark_ (getMark_ ("tip:b;text:a;text:c".toList) types.TEXT)
        (getMark_ ("tip:b;text:a;text:c".toList) types.TIP)
        (getMark_ ("tip:b;text:a;text:c".toList) types.VALUE) = some m2 ∧
      getMark_ m2 types.TEXT =
        getMark_ ("tip:b;text:a;text:c".toList) types.TEXT ∧
      getMark_ m2 types.TIP =
        getMark_ ("tip:b;text:a;text:c".toList) types.TIP ∧
      getMark_ m2 types.VALUE =
        getMark_ ("tip:b;text:a;text:c".toList) types.VALUE :=
  ⟨by decide, C2_parse_then_build ("tip:b;text:a;text:c".toList) (by decide)⟩

/-! ## Element-level facts: setters touch only their own field -/

theorem attributes_setInnerHTML (e : Element) (h : List Char) :
    (e.setInnerHTML h).attributes = e.attributes := by
  cases e
  rfl

theorem attributes_setValue (e : Element) (v : List Char) :
    (e.setValue v).attributes = e.attributes := by
  cases e
  rfl

theorem attributes_setTip (e : Element) (t : List Char) :
    (e.setTip t).attributes = e.attributes := by
  cases e
  rfl

theorem attributes_setOptions (e : Element) (o : List Element) :
    (e.setOptions o).attributes = e.attributes := by
  cases e
  rfl

theorem innerHTML_setValue (e : Element) (v : List Char) :
    (e.setValue v).innerHTML = e.innerHTML := by
  cases e
  rfl

theorem innerHTML_setTip (e : Element) (t : List Char) :
    (e.setTip t).innerHTML = e.innerHTML := by
  cases e
  rfl

theorem innerHTML_setOptions (e : Element) (o : List Element) :
    (e.setOptions o).innerHTML = e.innerHTML := by
  cases e
  rfl

theorem value_setInnerHTML (e : Element) (h : List Char) :
    (e.setInnerHTML h).value = e.value := by
  cases e
  rfl

theorem value_setTip (e : Element) (t : List Char) :
    (e.setTip t).value = e.value := by
  cases e
  rfl

theorem value_setOptions (e : Element) (o : List Element) :
    (e.setOptions o).value = e.value := by
  cases e
  rfl

theorem tip_setInnerHTML (e : Element) (h : List Char) :
    (e.setInnerHTML h).tip = e.tip := by
  cases e
  rfl

theorem tip_setValue (e : Element) (v : List Char) :
    (e.setValue v).tip = e.tip := by
  cases e
  rfl

theorem tip_setTip (e : Element) (t : List Char) : (e.setTip t).tip = some t := by
  cases e
  rfl

theorem tip_setOptions (e : Element) (o : List Element) :
    (e.setOptions o).tip = e.tip := by
  cases e
  rfl

theorem options_setInnerHTML (e : Element) (h : List Char) :
    (e.setInnerHTML h).options = e.options := by
  cases e
  rfl

theorem options_setValue (e : Element) (v : List Char) :
    (e.setValue v).options = e.options := by
  cases e
  rfl

theorem options_setTip (e : Element) (t : List Char) :
    (e.setTip t).options = e.options := by
  cases e
  rfl

theorem options_setOptions (e : Element) (o : List Element) :
    (e.setOptions o).options = o := by
  cases e
  rfl

theorem getElementTip_setInnerHTML (lang : Language) (e : Element)
    (h : List Char) :
    getElementTip_ lang (e.setInnerHTML h) = getElementTip_ lang e := by
  cases e
  rfl

theorem getElementTip_setValue (lang : Language) (e : Element) (v : List Char) :
    getElementTip_ lang (e.setValue v) = getElementTip_ lang e := by
  cases e
  rfl

/-- The `mark && mark != ''` guard is truthiness: it never differs from
`jsTruthy mark` because the empty string is already falsy. -/
theorem attr_guard (r : Option (List Char)) :
    (jsTruthy r && !(r == some ([] : List Char))) = jsTruthy r := by
  rcases r with _ | s
  · rfl
  · cases s <;> rfl

theorem attr_guard_true {ms : List Char} (h : ms ≠ []) :
    (jsTruthy (some ms) && !(some ms == some ([] : List Char))) = true := by
  cases ms
  · exact absurd rfl h
  · rfl

/-! ## Appliers deliver a resolved tip and schedule the Tip Scheduler -/

theorem span_sets_tip (lang : Language) (e : Element) (D : List Char)
    (hD : getElementTip_ lang e = some D) (hDne : D ≠ []) :
    (transLanguageForSpanElem lang e).1.tip = some D ∧
      (transLanguageForSpanElem lang e).2 = true := by
  simp only [transLanguageForSpanElem]
  by_cases htext : jsTruthy (getElementText_ lang e) = true
  · rw [if_pos htext]
    simp only [getElementTip_setInnerHTML, hD, jsTruthy_some_iff.mpr hDne,
      if_true, Option.getD_some]
    exact ⟨tip_setTip _ _, trivial⟩
  · rw [if_neg htext]
    simp only [hD, jsTruthy_some_iff.mpr hDne, if_true, Option.getD_some]
    exact ⟨tip_setTip _ _, trivial⟩

theorem input_sets_tip (lang : Language) (e : Element) (D : List Char)
    (hD : getElementTip_ lang e = some D) (hDne : D ≠ []) :
    (transLanguageForInputElem lang e).1.tip = some D ∧
      (transLanguageForInputElem lang e).2 = true := by
  simp only [transLanguageForInputElem]
  by_cases hval : jsTruthy (getElementValue_ lang e) = true
  · rw [if_pos hval]
    simp only [getElementTip_setValue, hD, jsTruthy_some_iff.mpr hDne,
      if_true, Option.getD_some]
    exact ⟨tip_setTip _ _, trivial⟩
  · rw [if_neg hval]
    simp only [hD, jsTruthy_some_iff.mpr hDne, if_true, Option.getD_some]
    exact ⟨tip_setTip _ _, trivial⟩

theorem select_sets_tip (lang : Language) (e : Element) (D : List Char)
    (hD : getElementTip_ lang e = some D) (hDne : D ≠ []) :
    (transLanguageForSelectElem lang e).1.tip = some D ∧
      (transLanguageForSelectElem lang e).2 = true := by
  simp only [transLanguageForSelectElem, hD, jsTruthy_some_iff.mpr hDne,
    if_true, Option.getD_some]
  exact ⟨by rw [tip_setOptions, tip_setTip], trivial⟩

theorem link_sets_tip (lang : Language) (e : Element) (D : List Char)
    (hD : getElementTip_ lang e = some D) (hDne : D ≠ []) :
    (transLanguageForLinkElem lang e).1.tip = some D ∧
      (transLanguageForLinkElem lang e).2 = true := by
  simp only [transLanguageForLinkElem, hD, jsTruthy_some_iff.mpr hDne,
    if_true, Option.getD_some]
  exact ⟨tip_setTip _ _, trivial⟩

/-- Claim C7: when the tip mark of an element resolves to a string `T`, the tip
delivered to the element by every tip-carrying applier (span, input, select,
link) is `T` followed by the literal `" Range="` and the value of a present and
non-empty `range` attribute, and exactly `T` when that attribute is absent or
empty. -/
theorem C7_range_augments_tip (lang : Language) (elem : Element)
    (ms T : List Char)
    (hms : elem.getAttribute TRANSMARK_ATTRNAME = some ms) (hmsne : ms ≠ [])
    (hT : getTip_ lang ms = some T) (hTne : T ≠ []) :
    ∃ D, getElementTip_ lang elem = some D ∧
      ((elem.getAttribute ("range".toList) = none ∨
          elem.getAttribute ("range".toList) = some []) → D = T) ∧
      (∀ R, elem.getAttribute ("range".toList) = some R → R ≠ [] →
        D = T ++ " Range=".toList ++ R) ∧
      (transLanguageForSpanElem lang elem).1.tip = some D ∧
      (transLanguageForSpanElem lang elem).2 = true ∧
      (transLanguageForInputElem lang elem).1.tip = some D ∧
      (transLanguageForInputElem lang elem).2 = true ∧
      (transLanguageForSelectElem lang elem).1.tip = some D ∧
      (transLanguageForSelectElem lang elem).2 = true ∧
      (transLanguageForLinkElem lang elem).1.tip = some D ∧
      (transLanguageForLinkElem lang elem).2 = true := by
  have hTip : getElementTip_ lang elem =
      some (if jsTruthy (elem.getAttribute ("range".toList)) = true then
        T ++ " Range=".toList ++ (elem.getAttribute ("range".toList)).getD []
      else T) := by
    simp only [getElementTip_, hms, attr_guard_true hmsne, if_true,
      Option.getD_some, hT, jsTruthy_some_iff.mpr hTne, attr_guard]
    by_cases hr : jsTruthy (elem.getAttribute ("range".toList)) = true
    · rw [if_pos hr, if_pos hr]
    · rw [if_neg hr, if_neg hr]
  have hDne : (if jsTruthy (elem.getAttribute ("range".toList)) = true then
      T ++ " Range=".toList ++ (elem.getAttribute ("range".toList)).getD []
    else T) ≠ [] := by
    by_cases hr : jsTruthy (elem.getAttribute ("range".toList)) = true
    · rw [if_pos hr]
      simp [hTne]
    · rw [if_neg hr]
      exact hTne
  obtain ⟨hs1, hs2⟩ := span_sets_tip lang elem _ hTip hDne
  obtain ⟨hi1, hi2⟩ := input_sets_tip lang elem _ hTip hDne
  obtain ⟨hse1, hse2⟩ := select_sets_tip lang elem _ hTip hDne
  obtain ⟨hl1, hl2⟩ := link_sets_tip lang elem _ hTip hDne
  refine ⟨_, hTip, ?_, ?_, hs1, hs2, hi1, hi2, hse1, hse2, hl1, hl2⟩
  · intro h
    rcases h with h | h <;> (rw [h]; rfl)
  · intro R hR hRne
    rw [hR]
    rw [if_pos (jsTruthy_some_iff.mpr hRne)]
    rfl

/-- A concrete resource table carrying one tip entry. -/
def langTitle : Language :=
  ⟨fun _ => none,
    fun k => if k == "titleTip".toList then
      some ("Enter the site title".toList) else none,
    fun _ => none⟩

/-- A concrete element marked `tip:titleTip` with `range="1-100"`. -/
def elemWithRange : Element :=
  .mk [("transmark".toList, "tip:titleTip".toList),
    ("range".toList, "1-100".toList)] [] [] none []

theorem C7_range_augments_tip_witness :
    getElementTip_ langTitle elemWithRange =
      some ("Enter the site title Range=1-100".toList) ∧
    (transLanguageForLinkElem langTitle elemWithRange).1.tip =
      some ("Enter the site title Range=1-100".toList) ∧
    (transLanguageForLinkElem langTitle elemWithRange).2 = true := by
  obtain ⟨D, hTip, -, hRng, -, -, -, -, -, -, hl1, hl2⟩ :=
    C7_range_augments_tip langTitle elemWithRange ("tip:titleTip".toList)
      ("Enter the site title".toList) (by decide) (by decide) (by decide)
      (by decide)
  have hD : D = "Enter the site title Range=1-100".toList := by
    rw [hRng ("1-100".toList) (by decide) (by decide)]
    decide
  rw [hD] at hTip hl1
  exact ⟨hTip, hl1, hl2⟩

/-! ## Failure modes collapse to "nothing to apply" -/

theorem ite_of_cond_false {α : Type} {c : Bool} (h : c = false) (x y : α) :
    (if c = true then x else y) = y := by
  rw [h]
  simp

theorem span_skips_tip (lang : Language) (e : Element)
    (htip : getElementTip_ lang e = none) :
    (transLanguageForSpanElem lang e).1.tip = e.tip ∧
      (transLanguageForSpanElem lang e).2 = false := by
  simp only [transLanguageForSpanElem]
  by_cases htext : jsTruthy (getElementText_ lang e) = true
  · rw [if_pos htext, getElementTip_setInnerHTML, htip]
    exact ⟨tip_setInnerHTML _ _, rfl⟩
  · rw [if_neg htext, htip]
    exact ⟨rfl, rfl⟩

theorem input_skips_tip (lang : Language) (e : Element)
    (htip : getElementTip_ lang e = none) :
    (transLanguageForInputElem lang e).1.tip = e.tip ∧
      (transLanguageForInputElem lang e).2 = false := by
  simp only [transLanguageForInputElem]
  by_cases hval : jsTruthy (getElementValue_ lang e) = true
  · rw [if_pos hval, getElementTip_setValue, htip]
    exact ⟨tip_setValue _ _, rfl⟩
  · rw [if_neg hval, htip]
    exact ⟨rfl, rfl⟩

theorem select_skips_tip (lang : Language) (e : Element)
    (htip : getElementTip_ lang e = none) :
    transLanguageForSelectElem lang e =
      (e.setOptions (e.options.map (transOptionElem lang)), false) := by
  simp only [transLanguageForSelectElem, htip]
  rfl

theorem link_skips_tip (lang : Language) (e : Element)
    (htip : getElementTip_ lang e = none) :
    transLanguageForLinkElem lang e = (e, false) := by
  simp only [transLanguageForLinkElem, htip]
  rfl

/-- Claim C8: every failure mode — absent or empty marker attribute, malformed
markset, absent mark name (with no pathological `"null"` resource key), or a
resource table without an entry for the mark name — collapses into "nothing to
apply": the corresponding mutation is skipped, the element is left unchanged,
and the Tip Scheduler is not invoked.  No exception can be raised: every
translator is a total function. -/
theorem C8_failures_collapse_and_skip (lang : Language) (elem : Element) :
    ((elem.getAttribute TRANSMARK_ATTRNAME = none ∨
        elem.getAttribute TRANSMARK_ATTRNAME = some []) →
      getElementText_ lang elem = none ∧ getElementTip_ lang elem = none ∧
        getElementValue_ lang elem = none ∧
        transLanguageForSpanElem lang elem = (elem, false) ∧
        transLanguageForInputElem lang elem = (elem, false) ∧
        transLanguageForLinkElem lang elem = (elem, false) ∧
        transLanguageForSelectElem lang elem =
          (elem.setOptions (elem.options.map (transOptionElem lang)), false)) ∧
    (∀ ms, elem.getAttribute TRANSMARK_ATTRNAME = some ms →
      getMark_ ms types.TIP = none → lang.tips ("null".toList) = none →
      getElementTip_ lang elem = none) ∧
    (∀ ms n, elem.getAttribute TRANSMARK_ATTRNAME = some ms →
      getMark_ ms types.TIP = some n → lang.tips n = none →
      getElementTip_ lang elem = none) ∧
    (getElementText_ lang elem = none →
      (transLanguageForSpanElem lang elem).1.innerHTML = elem.innerHTML) ∧
    (getElementValue_ lang elem = none →
      (transLanguageForInputElem lang elem).1.value = elem.value) ∧
    (getElementTip_ lang elem = none →
      ((transLanguageForSpanElem lang elem).1.tip = elem.tip ∧
        (transLanguageForSpanElem lang elem).2 = false) ∧
      ((transLanguageForInputElem lang elem).1.tip = elem.tip ∧
        (transLanguageForInputElem lang elem).2 = false) ∧
      transLanguageForSelectElem lang elem =
        (elem.setOptions (elem.options.map (transOptionElem lang)), false) ∧
      transLanguageForLinkElem lang elem = (elem, false)) := by
  refine ⟨?_, ?_, ?_, ?_, ?_, ?_⟩
  · intro h
    have h1 : getElementText_ lang elem = none := by
      rcases h with h | h <;> (simp only [getElementText_, h]; rfl)
    have h2 : getElementTip_ lang elem = none := by
      rcases h with h | h <;> (simp only [getElementTip_, h]; rfl)
    have h3 : getElementValue_ lang elem = none := by
      rcases h with h | h <;> (simp only [getElementValue_, h]; rfl)
    have he2 := ite_of_cond_false (show jsTruthy (getElementText_ lang elem) = false
      by rw [h1]; rfl) (elem.setInnerHTML ((getElementText_ lang elem).getD []))
      elem
    have hv2 := ite_of_cond_false (show jsTruthy (getElementValue_ lang elem) = false
      by rw [h3]; rfl) (elem.setValue ((getElementValue_ lang elem).getD []))
      elem
    refine ⟨h1, h2, h3, ?_, ?_, link_skips_tip lang elem h2, select_skips_tip lang elem h2⟩
    · simp only [transLanguageForSpanElem, he2, h2]
      rfl
    · simp only [transLanguageForInputElem, hv2, h2]
      rfl
  · intro ms hms hmark hnull
    cases ms with
    | nil =>
      simp only [getElementTip_, hms]
      rfl
    | cons c cs =>
      simp only [getElementTip_, hms, attr_guard_true (List.cons_ne_nil c cs),
        if_true, Option.getD_some]
      rw [getTip_, hmark]
      simp only [jsIndex, hnull]
      rfl
  · intro ms n hms hmark hentry
    cases ms with
    | nil =>
      simp only [getElementTip_, hms]
      rfl
    | cons c cs =>
      simp only [getElementTip_, hms, attr_guard_true (List.cons_ne_nil c cs),
        if_true, Option.getD_some]
      rw [getTip_, hmark]
      simp only [jsIndex, hentry]
      rfl
  · intro htext
    have he2 := ite_of_cond_false (show jsTruthy (getElementText_ lang elem) = false
      by rw [htext]; rfl) (elem.setInnerHTML ((getElementText_ lang elem).getD []))
      elem
    simp only [transLanguageForSpanElem, he2]
    by_cases htip2 : jsTruthy (getElementTip_ lang elem) = true
    · rw [if_pos htip2]
      exact innerHTML_setTip _ _
    · rw [if_neg htip2]
  · intro hval
    have hv2 := ite_of_cond_false (show jsTruthy (getElementValue_ lang elem) = false
      by rw [hval]; rfl) (elem.setValue ((getElementValue_ lang elem).getD []))
      elem
    simp only [transLanguageForInputElem, hv2]
    by_cases htip2 : jsTruthy (getElementTip_ lang elem) = true
    · rw [if_pos htip2]
      exact value_setTip _ _
    · rw [if_neg htip2]
  · intro htip
    exact ⟨span_skips_tip lang elem htip, input_skips_tip lang elem htip,
      select_skips_tip lang elem htip, link_skips_tip lang elem htip⟩

/-- A resource table with no entries at all. -/
def langEmpty : Language := ⟨fun _ => none, fun _ => none, fun _ => none⟩

/-- A concrete element whose tip mark has no resource entry. -/
def elemUnknownTip : Element :=
  .mk [("transmark".toList, "tip:unknownMark".toList)] [] [] none []

theorem C8_failures_collapse_and_skip_witness :
    getElementTip_ langEmpty elemUnknownTip = none ∧
    transLanguageForLinkElem langEmpty elemUnknownTip =
      (elemUnknownTip, false) := by
  have h := C8_failures_collapse_and_skip langEmpty elemUnknownTip
  have htip : getElementTip_ langEmpty elemUnknownTip = none :=
    h.2.2.1 ("tip:unknownMark".toList) ("unknownMark".toList) (by decide)
      (by decide) rfl
  exact ⟨htip, (h.2.2.2.2.2 htip).2.2.2⟩

/-! ## Frame conditions: each applier writes only its designated fields -/

theorem transOptionElem_attributes (lang : Language) (o : Element) :
    (transOptionElem lang o).attributes = o.attributes := by
  simp only [transOptionElem]
  by_cases h : jsTruthy (getElementText_ lang o) = true
  · rw [if_pos h]
    exact attributes_setInnerHTML _ _
  · rw [if_neg h]

theorem transOptionElem_value (lang : Language) (o : Element) :
    (transOptionElem lang o).value = o.value := by
  simp only [transOptionElem]
  by_cases h : jsTruthy (getElementText_ lang o) = true
  · rw [if_pos h]
    exact value_setInnerHTML _ _
  · rw [if_neg h]

theorem transOptionElem_tip (lang : Language) (o : Element) :
    (transOptionElem lang o).tip = o.tip := by
  simp only [transOptionElem]
  by_cases h : jsTruthy (getElementText_ lang o) = true
  · rw [if_pos h]
    exact tip_setInnerHTML _ _
  · rw [if_neg h]

theorem transOptionElem_options (lang : Language) (o : Element) :
    (transOptionElem lang o).options = o.options := by
  simp only [transOptionElem]
  by_cases h : jsTruthy (getElementText_ lang o) = true
  · rw [if_pos h]
    exact options_setInnerHTML _ _
  · rw [if_neg h]

theorem span_frame (lang : Language) (e : Element) :
    (transLanguageForSpanElem lang e).1.attributes = e.attributes ∧
      (transLanguageForSpanElem lang e).1.value = e.value ∧
      (transLanguageForSpanElem lang e).1.options = e.options := by
  simp only [transLanguageForSpanElem]
  by_cases h1 : jsTruthy (getElementText_ lang e) = true
  · rw [if_pos h1]
    by_cases h2 : jsTruthy (getElementTip_ lang
        (e.setInnerHTML ((getElementText_ lang e).getD []))) = true
    · rw [if_pos h2]
      refine ⟨?_, ?_, ?_⟩
      · rw [attributes_setTip, attributes_setInnerHTML]
      · rw [value_setTip, value_setInnerHTML]
      · rw [options_setTip, options_setInnerHTML]
    · rw [if_neg h2]
      exact ⟨attributes_setInnerHTML _ _, value_setInnerHTML _ _,
        options_setInnerHTML _ _⟩
  · rw [if_neg h1]
    by_cases h2 : jsTruthy (getElementTip_ lang e) = true
    · rw [if_pos h2]
      exact ⟨attributes_setTip _ _, value_setTip _ _, options_setTip _ _⟩
    · rw [if_neg h2]
      exact ⟨rfl, rfl, rfl⟩

theorem input_frame (lang : Language) (e : Element) :
    (transLanguageForInputElem lang e).1.attributes = e.attributes ∧
      (transLanguageForInputElem lang e).1.innerHTML = e.innerHTML ∧
      (transLanguageForInputElem lang e).1.options = e.options := by
  simp only [transLanguageForInputElem]
  by_cases h1 : jsTruthy (getElementValue_ lang e) = true
  · rw [if_pos h1]
    by_cases h2 : jsTruthy (getElementTip_ lang
        (e.setValue ((getElementValue_ lang e).getD []))) = true
    · rw [if_pos h2]
      refine ⟨?_, ?_, ?_⟩
      · rw [attributes_setTip, attributes_setValue]
      · rw [innerHTML_setTip, innerHTML_setValue]
      · rw [options_setTip, options_setValue]
    · rw [if_neg h2]
      exact ⟨attributes_setValue _ _, innerHTML_setValue _ _,
        options_setValue _ _⟩
  · rw [if_neg h1]
    by_cases h2 : jsTruthy (getElementTip_ lang e) = true
    · rw [if_pos h2]
      exact ⟨attributes_setTip _ _, innerHTML_setTip _ _, options_setTip _ _⟩
    · rw [if_neg h2]
      exact ⟨rfl, rfl, rfl⟩

theorem select_frame (lang : Language) (e : Element) :
    (transLanguageForSelectElem lang e).1.attributes = e.attributes ∧
      (transLanguageForSelectElem lang e).1.innerHTML = e.innerHTML ∧
      (transLanguageForSelectElem lang e).1.value = e.value ∧
      (transLanguageForSelectElem lang e).1.options.map Element.attributes =
        e.options.map Element.attributes ∧
      (transLanguageForSelectElem lang e).1.options.map Element.value =
        e.options.map Element.value ∧
      (transLanguageForSelectElem lang e).1.options.map Element.tip =
        e.options.map Element.tip ∧
      (transLanguageForSelectElem lang e).1.options.map Element.options =
        e.options.map Element.options := by
  simp only [transLanguageForSelectElem]
  by_cases h : jsTruthy (getElementTip_ lang e) = true
  · rw [if_pos h]
    refine ⟨?_, ?_, ?_, ?_, ?_, ?_, ?_⟩
    · rw [attributes_setOptions, attributes_setTip]
    · rw [innerHTML_setOptions, innerHTML_setTip]
    · rw [value_setOptions, value_setTip]
    · rw [options_setOptions, options_setTip, List.map_map]
      simp [Function.comp, transOptionElem_attributes]
    · rw [options_setOptions, options_setTip, List.map_map]
      simp [Function.comp, transOptionElem_value]
    · rw [options_setOptions, options_setTip, List.map_map]
      simp [Function.comp, transOptionElem_tip]
    · rw [options_setOptions, options_setTip, List.map_map]
      simp [Function.comp, transOptionElem_options]
  · rw [if_neg h]
    refine ⟨?_, ?_, ?_, ?_, ?_, ?_, ?_⟩
    · exact attributes_setOptions _ _
    · exact innerHTML_setOptions _ _
    · exact value_setOptions _ _
    · rw [options_setOptions, List.map_map]
      simp [Function.comp, transOptionElem_attributes]
    · rw [options_setOptions, List.map_map]
      simp [Function.comp, transOptionElem_value]
    · rw [options_setOptions, List.map_map]
      simp [Function.comp, transOptionElem_tip]
    · rw [options_setOptions, List.map_map]
      simp [Function.comp, transOptionElem_options]

theorem link_frame (lang : Language) (e : Element) :
    (transLanguageForLinkElem lang e).1.attributes = e.attributes ∧
      (transLanguageForLinkElem lang e).1.innerHTML = e.innerHTML ∧
      (transLanguageForLinkElem lang e).1.value = e.value ∧
      (transLanguageForLinkElem lang e).1.options = e.options := by
  simp only [transLanguageForLinkElem]
  by_cases h : jsTruthy (getElementTip_ lang e) = true
  · rw [if_pos h]
    exact ⟨attributes_setTip _ _, innerHTML_setTip _ _, value_setTip _ _,
      options_setTip _ _⟩
  · rw [if_neg h]
    exact ⟨rfl, rfl, rfl, rfl⟩

/-- Claim C9: every applier only reads the element's attributes (in particular
the `transmark` and `range` attributes are never written — the whole attribute
map is unchanged) and mutates only its designated fields: span only `innerHTML`
and `tip`; input only `value` and `tip`; select only its own `tip` and each
option's `innerHTML` (each option's attributes, value, tip and children are
unchanged); link only `tip`. -/
theorem C9_frame_conditions (lang : Language) (elem : Element) :
    ((transLanguageForSpanElem lang elem).1.attributes = elem.attributes ∧
      (transLanguageForSpanElem lang elem).1.value = elem.value ∧
      (transLanguageForSpanElem lang elem).1.options = elem.options) ∧
    ((transLanguageForInputElem lang elem).1.attributes = elem.attributes ∧
      (transLanguageForInputElem lang elem).1.innerHTML = elem.innerHTML ∧
      (transLanguageForInputElem lang elem).1.options = elem.options) ∧
    ((transLanguageForSelectElem lang elem).1.attributes = elem.attributes ∧
      (transLanguageForSelectElem lang elem).1.innerHTML = elem.innerHTML ∧
      (transLanguageForSelectElem lang elem).1.value = elem.value ∧
      (transLanguageForSelectElem lang elem).1.options.map Element.attributes =
        elem.options.map Element.attributes ∧
      (transLanguageForSelectElem lang elem).1.options.map Element.value =
        elem.options.map Element.value ∧
      (transLanguageForSelectElem lang elem).1.options.map Element.tip =
        elem.options.map Element.tip ∧
      (transLanguageForSelectElem lang elem).1.options.map Element.options =
        elem.options.map Element.options) ∧
    ((transLanguageForLinkElem lang elem).1.attributes = elem.attributes ∧
      (transLanguageForLinkElem lang elem).1.innerHTML = elem.innerHTML ∧
      (transLanguageForLinkElem lang elem).1.value = elem.value ∧
      (transLanguageForLinkElem lang elem).1.options = elem.options) :=
  ⟨span_frame lang elem, input_frame lang elem, select_frame lang elem,
    link_frame lang elem⟩
